import Mathlib

/-!
# Lucin ray tracer: `ray_color`, `write_color` and the render loop of `main.cpp`

A shallow embedding of `src/Lucin/main/main.cpp`.

* C++ `double` is idealised as an element of a linearly ordered field `F`
  (exact arithmetic).  Every definition is computable once `F` is, for instance
  at `F := ℚ`; the theorems hold for every such `F`, in particular for `ℝ`.
  Where the rounding of `double` arithmetic decides the byte that `write_color`
  produces, `write_color_rounded` carries the rounding as a parameter and
  `round_to_double`, `sqrt_double` model IEEE 754 binary64 on the rationals.
* `sqrt` is the C library function; it is a parameter of every definition that
  calls it.
* The headers `vec3.h`, `ray.h`, `hittable.h`, `material.h`, `camera.h` and
  `rtweekend.h` are not part of the sources at hand.  The few value operations
  of `vec3` that `main.cpp` uses are modelled from the specification; the
  virtual calls `world.hit`, `mat_ptr->scatter`, `cam.get_ray` and the global
  generator behind `random_double` are parameters.
* The process-wide random generator is an explicit state `σ` that is passed
  through every call that may draw from it.
-/

namespace Lucin

/-! ## Vector / colour algebra (`vec3.h`) -/

/-- Modelled from the spec: the 3-component value type of `vec3.h`, reused as
`color` (r = x, g = y, b = z) and `point3`. -/
structure vec3 (F : Type) where
  x : F
  y : F
  z : F
deriving DecidableEq

/-- Modelled from the spec: `using color = vec3`. -/
abbrev color (F : Type) := vec3 F

/-- Modelled from the spec: `using point3 = vec3`. -/
abbrev point3 (F : Type) := vec3 F

namespace vec3

variable {F : Type}

/-- Modelled from the spec: vector addition, `operator+(vec3, vec3)`. -/
def add [Add F] (u v : vec3 F) : vec3 F := ⟨u.x + v.x, u.y + v.y, u.z + v.z⟩

/-- Modelled from the spec: component-wise multiply, `operator*(vec3, vec3)`,
used for colour attenuation. -/
def mul [Mul F] (u v : vec3 F) : vec3 F := ⟨u.x * v.x, u.y * v.y, u.z * v.z⟩

/-- Modelled from the spec: scale by a scalar, `operator*(double, vec3)`. -/
def smul [Mul F] (t : F) (v : vec3 F) : vec3 F := ⟨t * v.x, t * v.y, t * v.z⟩

/-- Modelled from the spec: `operator/(vec3 v, double t)`, that is `(1/t) * v`. -/
def sdiv [Mul F] [Div F] [One F] (v : vec3 F) (t : F) : vec3 F := smul (1 / t) v

/-- Modelled from the spec: squared length. -/
def length_squared [Add F] [Mul F] (v : vec3 F) : F := v.x * v.x + v.y * v.y + v.z * v.z

/-- Modelled from the spec: length, the square root of the squared length. -/
def length [Add F] [Mul F] (sqrt : F → F) (v : vec3 F) : F := sqrt (length_squared v)

/-- Modelled from the spec: unit-vector normalisation `v / v.length()`; the zero
vector is not guarded. -/
def unit_vector [Add F] [Mul F] [Div F] [One F] (sqrt : F → F) (v : vec3 F) : vec3 F :=
  sdiv v (length sqrt v)

/-- Component access `col[k]`: 0 is x (red), 1 is y (green), anything else z (blue). -/
def get (v : vec3 F) (k : Nat) : F :=
  match k with
  | 0 => v.x
  | 1 => v.y
  | _ => v.z

end vec3

/-! ## Rays, hit records, scenes and materials -/

/-- Modelled from the spec: a ray is an origin and a direction (`ray.h`); the
direction need not be of unit length. -/
structure ray (F : Type) where
  orig : point3 F
  dir : vec3 F
deriving DecidableEq

/-- Modelled from the spec: accessor `ray::direction()`. -/
def ray.direction {F : Type} (r : ray F) : vec3 F := r.dir

/-- Modelled from the spec: the result of a successful intersection test
(`hittable.h`).  `M` is the type of material handles (`shared_ptr<material>`). -/
structure hit_record (F M : Type) where
  p : point3 F
  normal : vec3 F
  mat_ptr : M
  t : F
  front_face : Bool

/-- Modelled from the spec: the capability `hit(ray, t_min, t_max)` of a
`hittable`.  The upper bound is `⊤` for the constant `infinity`.  The bool
result and the out-parameter `rec` of the C++ signature become an `Option`. -/
structure hittable (F M : Type) where
  hit : ray F → F → WithTop F → Option (hit_record F M)

/-- Modelled from the spec: the capability `scatter(r_in, rec, attenuation,
scattered)` of a `material`, dispatched on the material handle.  The bool
result and the two out-parameters become an `Option`; the state of the global
random generator goes in and comes out. -/
structure materials (F M σ : Type) where
  scatter : M → ray F → hit_record F M → σ → Option (color F × ray F) × σ

/-! ## The path integrator `ray_color` (main.cpp, lines 13-29) -/

section integrator

variable {F M σ : Type} [LinearOrderedField F]

/-- The colour `color(0, 0, 0)`. -/
def black : color F := ⟨0, 0, 0⟩

/-- Lines 26-28 of `ray_color`: the background of a ray that hits nothing,
`(1.0 - t) * color(1.0, 1.0, 1.0) + t * color(0.5, 0.7, 1.0)` with
`t = 0.5 * (unit_direction.y() + 1.0)`. -/
def background (sqrt : F → F) (r : ray F) : color F :=
  let unit_direction := vec3.unit_vector sqrt r.direction
  let t := 0.5 * (unit_direction.y + 1.0)
  vec3.add (vec3.smul (1.0 - t) ⟨1.0, 1.0, 1.0⟩) (vec3.smul t ⟨0.5, 0.7, 1.0⟩)

/-- The function `ray_color(r, world, depth)` of main.cpp.  `depth` is a C++ `int`;
the recursive call is made with `depth - 1`. -/
def ray_color (sqrt : F → F) (mats : materials F M σ) (r : ray F) (world : hittable F M)
    (depth : Int) (s : σ) : color F × σ :=
  if depth ≤ 0 then (black, s)
  else
    match world.hit r 0.001 ⊤ with
    | some rec =>
      match mats.scatter rec.mat_ptr r rec s with
      | (some (attenuation, scattered), s1) =>
        let res := ray_color sqrt mats scattered world (depth - 1) s1
        (vec3.mul attenuation res.1, res.2)
      | (none, s1) => (black, s1)
    | none => (background sqrt r, s)
termination_by depth.toNat
decreasing_by omega

/-- The body of `ray_color` run with a bound on the nesting of recursive calls:
`fuel` is the number of nested recursive calls still allowed, and `none` is the
result of a computation that would nest deeper.  Nothing in this definition
assumes that the recursion of `ray_color` ends. -/
def ray_color_fuel (sqrt : F → F) (mats : materials F M σ) (world : hittable F M) :
    Nat → ray F → Int → σ → Option (color F × σ)
  | fuel, r, depth, s =>
    if depth ≤ 0 then some (black, s)
    else
      match world.hit r 0.001 ⊤ with
      | some rec =>
        match mats.scatter rec.mat_ptr r rec s with
        | (some (attenuation, scattered), s1) =>
          match fuel with
          | 0 => none
          | k + 1 =>
            match ray_color_fuel sqrt mats world k scattered (depth - 1) s1 with
            | some res => some (vec3.mul attenuation res.1, res.2)
            | none => none
        | (none, s1) => some (black, s1)
      | none => some (background sqrt r, s)

/-- The iterative formulation of the path integrator, written after the
specification: start with the attenuation product `(1,1,1)` and the given ray and
repeat at most `budget` times: on a miss return the product times the background
gradient of the current ray; on a hit that is absorbed return black; on a hit
that scatters multiply the product component-wise by the attenuation and go on
with the scattered ray; when the budget runs out return black. -/
def ray_color_loop (sqrt : F → F) (mats : materials F M σ) (world : hittable F M) :
    Nat → color F → ray F → σ → color F × σ
  | 0, _, _, s => (black, s)
  | budget + 1, product, r, s =>
    match world.hit r 0.001 ⊤ with
    | none => (vec3.mul product (background sqrt r), s)
    | some rec =>
      match mats.scatter rec.mat_ptr r rec s with
      | (none, s1) => (black, s1)
      | (some (attenuation, scattered), s1) =>
        ray_color_loop sqrt mats world budget (vec3.mul product attenuation) scattered s1

/-- The iterative formulation started as the specification says, with the
product `(1,1,1)`. -/
def ray_color_iterative (sqrt : F → F) (mats : materials F M σ) (r : ray F)
    (world : hittable F M) (budget : Nat) (s : σ) : color F × σ :=
  ray_color_loop sqrt mats world budget ⟨1, 1, 1⟩ r s

end integrator

/-! ## Quantisation `write_color` (main.cpp, lines 31-45) -/

section quantisation

variable {F : Type} [LinearOrderedField F] [FloorRing F]

/-- Modelled from the spec: `clamp(x, min, max)` of `rtweekend.h`, which returns
`min` below the interval, `max` above it and `x` inside. -/
def clamp (x min max : F) : F :=
  if x < min then min else if x > max then max else x

/-- The conversion `static_cast<int>(double)`: truncation toward zero. -/
def static_cast_int (x : F) : Int :=
  if 0 ≤ x then ⌊x⌋ else ⌈x⌉

/-- The function `write_color(col, samples_per_pixel)`; the colour written back
through the reference `col` is the result.  Each channel receives an `int`
converted back to `double`.  The arithmetic is exact here; `write_color_rounded`
below makes the rounding of the `double` operations explicit. -/
def write_color (sqrt : F → F) (col : color F) (samples_per_pixel : Int) : color F :=
  let r := col.x
  let g := col.y
  let b := col.z
  let scale := 1.0 / (samples_per_pixel : F)
  let r := sqrt (scale * r)
  let g := sqrt (scale * g)
  let b := sqrt (scale * b)
  ⟨((static_cast_int (256 * clamp r 0.0 0.999) : Int) : F),
   ((static_cast_int (256 * clamp g 0.0 0.999) : Int) : F),
   ((static_cast_int (256 * clamp b 0.0 0.999) : Int) : F)⟩

/-- The conversion `static_cast<char>(double)` with an 8-bit signed `char`: the
value is truncated and reduced into `-128 .. 127`. -/
def static_cast_char (x : F) : Int :=
  (static_cast_int x + 128) % 256 - 128

/-- The conversion of a `char` to `unsigned char` when it is assigned to an
element of `data`: reduction modulo 256. -/
def to_unsigned_char (c : Int) : Int := c % 256

end quantisation

/-! ## Double rounding in `write_color` -/

section double_rounding

/-- Rounding of a rational number to the nearest integer, ties to the even
integer. -/
def round_half_even (x : ℚ) : Int :=
  let f := ⌊x⌋
  let d := x - (f : ℚ)
  if d < 1 / 2 then f else if 1 / 2 < d then f + 1 else if f % 2 = 0 then f else f + 1

/-- The rounding of C++ `double` arithmetic (IEEE 754 binary64, round to nearest,
ties to even): the rational `q` is rounded to 53 significant bits.  The exponent
range is not bounded, so overflow and subnormal numbers are not modelled. -/
def round_to_double (q : ℚ) : ℚ :=
  if q = 0 then 0
  else
    let ulp : ℚ := 2 ^ (Int.log 2 |q| - 52)
    (round_half_even (q / ulp) : ℚ) * ulp

/-- The `sqrt` of the C library on doubles: the square root rounded to 53
significant bits, to nearest, ties to even.  The model returns 0 for `q <= 0`
(the library returns NaN below zero; `write_color` takes the root of a
non-negative number when the sum is non-negative). -/
def sqrt_double (q : ℚ) : ℚ :=
  if q ≤ 0 then 0
  else
    let ulp : ℚ := 2 ^ (Int.log 2 q / 2 - 52)
    let t : ℚ := q / (ulp * ulp)
    let f : Nat := Nat.sqrt ⌊t⌋₊
    let h : ℚ := (f : ℚ) * f + f + 1 / 4
    let m : Nat := if t < h then f else if h < t then f + 1 else if f % 2 = 0 then f else f + 1
    (m : ℚ) * ulp

/-- The function `write_color` with the rounding of its `double` operations made
explicit: `fl` is applied to the result of the division, of every multiplication
and to the literal `0.999`; the literals `0.0`, `1.0`, `256` and the converted
`int` are exact.  With `fl` the identity this is `write_color`. -/
def write_color_rounded {F : Type} [LinearOrderedField F] [FloorRing F] (fl sqrt : F → F)
    (col : color F) (samples_per_pixel : Int) : color F :=
  let r := col.x
  let g := col.y
  let b := col.z
  let scale := fl (1.0 / (samples_per_pixel : F))
  let r := sqrt (fl (scale * r))
  let g := sqrt (fl (scale * g))
  let b := sqrt (fl (scale * b))
  ⟨((static_cast_int (fl (256 * clamp r 0.0 (fl 0.999))) : Int) : F),
   ((static_cast_int (fl (256 * clamp g 0.0 (fl 0.999))) : Int) : F),
   ((static_cast_int (fl (256 * clamp b 0.0 (fl 0.999))) : Int) : F)⟩

end double_rounding

/-! ## The render loop of `main` (main.cpp, lines 76-94) -/

section render_loop

variable {F M σ : Type} [LinearOrderedField F] [FloorRing F]

/-- Modelled from the spec: the capability `get_ray(u, v)` of `camera.h`. -/
structure camera (F : Type) where
  get_ray : F → F → ray F

/-- Line 83: `u = (i + random_double()) / (int)(image_width - 1)`, where `rnd` is
the number the generator returned. -/
def sample_u (image_width : Nat) (i : Nat) (rnd : F) : F :=
  ((i : F) + rnd) / (((image_width : Int) - 1 : Int) : F)

/-- Line 84: `v = (j + random_double()) / (int)(image_height - 1)`. -/
def sample_v (image_height : Nat) (j : Nat) (rnd : F) : F :=
  ((j : F) + rnd) / (((image_height : Int) - 1 : Int) : F)

/-- One store `data[index] = byte` of the render loop.  The fields `i`, `j`,
`chan`, `sum` and `col` record where the store comes from: the pixel column and
scan row, the channel (0, 1, 2), the accumulated `pixel_color` before
`write_color` and the `pixel_color` after it. -/
structure store (F : Type) where
  index : Nat
  byte : Int
  i : Nat
  j : Nat
  chan : Nat
  sum : color F
  col : color F

/-- The variables the render loop updates: the counter `index`, the stores made
into `data` so far, in program order, and the state of the random generator. -/
structure render_state (F σ : Type) where
  index : Nat
  data : List (store F)
  rng : σ

/-- Lines 83-86: the body of the sample loop, one jittered sample added to
`pixel_color`. -/
def sample (sqrt : F → F) (mats : materials F M σ) (world : hittable F M) (cam : camera F)
    (random_double : σ → F × σ) (image_width image_height : Nat) (maxDepth : Int)
    (i j : Nat) (acc : color F × σ) : color F × σ :=
  let d1 := random_double acc.2
  let u := sample_u image_width i d1.1
  let d2 := random_double d1.2
  let v := sample_v image_height j d2.1
  let r := cam.get_ray u v
  let res := ray_color sqrt mats r world maxDepth d2.2
  (vec3.add acc.1 res.1, res.2)

/-- Lines 80-87: `pixel_color` starts black and receives `samples_per_pixel`
samples. -/
def accumulate (sqrt : F → F) (mats : materials F M σ) (world : hittable F M) (cam : camera F)
    (random_double : σ → F × σ) (image_width image_height samples_per_pixel : Nat)
    (maxDepth : Int) (i j : Nat) (s : σ) : color F × σ :=
  (List.range samples_per_pixel).foldl
    (fun acc _ => sample sqrt mats world cam random_double image_width image_height maxDepth i j acc)
    (black, s)

/-- Lines 80-92: the body of the loop over `i`: accumulate the samples, call
`write_color`, store the three channels at `index`, `index + 1`, `index + 2`. -/
def render_pixel (sqrt : F → F) (mats : materials F M σ) (world : hittable F M) (cam : camera F)
    (random_double : σ → F × σ) (image_width image_height samples_per_pixel : Nat)
    (maxDepth : Int) (j i : Nat) (st : render_state F σ) : render_state F σ :=
  let acc := accumulate sqrt mats world cam random_double image_width image_height
    samples_per_pixel maxDepth i j st.rng
  let pixel_color := write_color sqrt acc.1 (samples_per_pixel : Int)
  { index := st.index + 3
    data := st.data ++
      [⟨st.index, to_unsigned_char (static_cast_char pixel_color.x), i, j, 0, acc.1, pixel_color⟩,
       ⟨st.index + 1, to_unsigned_char (static_cast_char pixel_color.y), i, j, 1, acc.1,
         pixel_color⟩,
       ⟨st.index + 2, to_unsigned_char (static_cast_char pixel_color.z), i, j, 2, acc.1,
         pixel_color⟩]
    rng := acc.2 }

/-- Lines 79-93: the loop `for (int i = 0; i < image_width; ++i)` of scan row `j`. -/
def render_row (sqrt : F → F) (mats : materials F M σ) (world : hittable F M) (cam : camera F)
    (random_double : σ → F × σ) (image_width image_height samples_per_pixel : Nat)
    (maxDepth : Int) (st : render_state F σ) (j : Nat) : render_state F σ :=
  (List.range image_width).foldl
    (fun st i => render_pixel sqrt mats world cam random_double image_width image_height
      samples_per_pixel maxDepth j i st) st

/-- Lines 76-94: `index = 0`, then the loop
`for (int j = image_height - 1; j >= 0; --j)` over the scan rows. -/
def render (sqrt : F → F) (mats : materials F M σ) (world : hittable F M) (cam : camera F)
    (random_double : σ → F × σ) (image_width image_height samples_per_pixel : Nat)
    (maxDepth : Int) (s : σ) : render_state F σ :=
  (List.range image_height).reverse.foldl
    (render_row sqrt mats world cam random_double image_width image_height
      samples_per_pixel maxDepth) ⟨0, [], s⟩

end render_loop

/-! ## The specification's background gradient and concrete scenes -/

section reference

/-- The background gradient as the specification words it: white at the horizon,
sky-blue at the zenith, interpolated by `t = 0.5 * (yn + 1)` where `yn` is the
vertical component of the normalised direction. -/
def sky_gradient {F : Type} [LinearOrderedField F] (yn : F) : color F :=
  let t := 0.5 * (yn + 1)
  vec3.add (vec3.smul (1 - t) ⟨1, 1, 1⟩) (vec3.smul t ⟨0.5, 0.7, 1.0⟩)

/-- A square root on the rationals, exact on squares of rationals. -/
def rat_sqrt (q : ℚ) : ℚ := Rat.sqrt q

/-- A scene in which every ray hits: the hit point is one unit along the ray and
the normal points up. -/
def hall_of_mirrors : hittable ℚ Unit :=
  ⟨fun r _ _ => some ⟨vec3.add r.orig r.dir, ⟨0, 1, 0⟩, (), 1, true⟩⟩

/-- A material that always scatters: it halves every channel, sends the ray on in
the same direction and draws one number from the generator. -/
def half_mirror : materials ℚ Unit Nat :=
  ⟨fun _ r rec s => (some (⟨1 / 2, 1 / 2, 1 / 2⟩, ⟨rec.p, r.dir⟩), s + 1)⟩

/-- A material that always absorbs. -/
def absorber : materials ℚ Unit Nat :=
  ⟨fun _ _ _ s => (none, s + 1)⟩

/-- The scene without objects: no ray hits. -/
def empty_scene : hittable ℚ Unit :=
  ⟨fun _ _ _ => none⟩

/-- A ray from the origin with direction `(3, 4, 0)`, of length 5. -/
def ray_345 : ray ℚ := ⟨⟨0, 0, 0⟩, ⟨3, 4, 0⟩⟩

/-- A camera at the origin that looks along the negative z axis. -/
def pinhole : camera ℚ := ⟨fun u v => ⟨⟨0, 0, 0⟩, ⟨u, v, -1⟩⟩⟩

/-- A generator that always returns one half and counts its calls. -/
def constant_half (s : Nat) : ℚ × Nat := (1 / 2, s + 1)

/-- Where a store comes from: its index, pixel column, scan row and channel. -/
def store.origin {F : Type} (e : store F) : Nat × Nat × Nat × Nat :=
  (e.index, e.i, e.j, e.chan)

/-- The row-major, top-to-bottom, interleaved layout of the specification: byte `k`
of an image of width `w` and height `h` belongs to pixel number `k / 3` counted
from the top left, that is to column `(k / 3) % w` of scan row
`h - 1 - (k / 3) / w`, and holds channel `k % 3`. -/
def layout (w h k : Nat) : Nat × Nat × Nat × Nat :=
  (k, (k / 3) % w, h - 1 - (k / 3) / w, k % 3)

/-- The render loop has processed `p` pixels: the counter is `3 * p` and the
stores made so far are the first `3 * p` bytes of the layout, in order. -/
def scanned {F σ : Type} (w h p : Nat) (st : render_state F σ) : Prop :=
  st.index = 3 * p ∧ st.data.map store.origin = (List.range (3 * p)).map (layout w h)

/-- Every store made so far holds channel `chan` of `write_color` applied to the
accumulated sum, converted to a byte. -/
def quantised {F σ : Type} [LinearOrderedField F] [FloorRing F] (sqrt : F → F) (n : Nat)
    (st : render_state F σ) : Prop :=
  ∀ e ∈ st.data, e.chan < 3 ∧ e.col = write_color sqrt e.sum (n : Int) ∧
    e.byte = to_unsigned_char (static_cast_char (e.col.get e.chan))

/-- Every channel of the colour `c` lies between 0 and `b`. -/
def channels_in {F : Type} [LinearOrderedField F] (c : color F) (b : F) : Prop :=
  (0 ≤ c.x ∧ c.x ≤ b) ∧ (0 ≤ c.y ∧ c.y ≤ b) ∧ (0 ≤ c.z ∧ c.z ≤ b)

/-- The rays that `ray_color` traces from `r` with at most `budget` bounces, the
first ray and every scattered ray after it, all have a non-zero direction. -/
def nonzero_directions {F M σ : Type} [LinearOrderedField F] (mats : materials F M σ)
    (world : hittable F M) : Nat → ray F → σ → Prop
  | 0, _, _ => True
  | budget + 1, r, s =>
    r.dir ≠ ⟨0, 0, 0⟩ ∧
      match world.hit r 0.001 ⊤ with
      | none => True
      | some rec =>
        match mats.scatter rec.mat_ptr r rec s with
        | (none, _) => True
        | (some (_, scattered), s1) => nonzero_directions mats world budget scattered s1

/-- A floor: a ray hits when its origin lies below height 1, at the point
`(0, 1, 0)`. -/
def floor_scene {F : Type} [LinearOrderedField F] : hittable F Unit :=
  ⟨fun r _ _ => if r.orig.y < 1 then some ⟨⟨0, 1, 0⟩, ⟨0, 1, 0⟩, (), 1, true⟩ else none⟩

/-- A material that scatters every ray straight up from the hit point and halves
every channel. -/
def grey_up {F : Type} [LinearOrderedField F] : materials F Unit Nat :=
  ⟨fun _ _ rec s => (some (⟨1 / 2, 1 / 2, 1 / 2⟩, ⟨rec.p, ⟨0, 1, 0⟩⟩), s + 1)⟩

/-- A camera at the origin whose rays all point straight up. -/
def camera_up {F : Type} [LinearOrderedField F] : camera F :=
  ⟨fun _ _ => ⟨⟨0, 0, 0⟩, ⟨0, 1, 0⟩⟩⟩

/-- A generator that always returns one half and counts its calls, over any field. -/
def half_generator {F : Type} [LinearOrderedField F] (s : Nat) : F × Nat := (1 / 2, s + 1)

end reference

/-! ## Theorems about `ray_color` -/

section integrator_theorems

variable {F M σ : Type} [LinearOrderedField F]

theorem ray_color_unfold (sqrt : F → F) (mats : materials F M σ) (r : ray F)
    (world : hittable F M) (depth : Int) (s : σ) :
    ray_color sqrt mats r world depth s =
      if depth ≤ 0 then (black, s)
      else
        match world.hit r 0.001 ⊤ with
        | some rec =>
          match mats.scatter rec.mat_ptr r rec s with
          | (some (attenuation, scattered), s1) =>
            (vec3.mul attenuation (ray_color sqrt mats scattered world (depth - 1) s1).1,
              (ray_color sqrt mats scattered world (depth - 1) s1).2)
          | (none, s1) => (black, s1)
        | none => (background sqrt r, s) := by
  rw [ray_color]

theorem background_eq_sky_gradient (sqrt : F → F) (r : ray F) :
    background sqrt r = sky_gradient (r.dir.y / vec3.length sqrt r.dir) := by
  have h1 : (1.0 : F) = 1 := by norm_num
  simp only [background, sky_gradient, vec3.unit_vector, vec3.sdiv, vec3.smul, ray.direction,
    h1, one_div_mul_eq_div]

theorem ray_color_of_miss (sqrt : F → F) (mats : materials F M σ) (r : ray F)
    (world : hittable F M) (depth : Int) (s : σ) (hdepth : 0 < depth)
    (hmiss : world.hit r 0.001 ⊤ = none) :
    ray_color sqrt mats r world depth s =
      (sky_gradient (r.dir.y / vec3.length sqrt r.dir), s) := by
  rw [ray_color_unfold, if_neg (not_le.mpr hdepth)]
  simp only [hmiss, background_eq_sky_gradient]

theorem ray_color_fuel_of_le (sqrt : F → F) (mats : materials F M σ) (world : hittable F M) :
    ∀ (fuel : Nat) (r : ray F) (depth : Int) (s : σ), depth ≤ (fuel : Int) →
      ray_color_fuel sqrt mats world fuel r depth s =
        some (ray_color sqrt mats r world depth s) := by
  intro fuel
  induction fuel with
  | zero =>
    intro r depth s h
    have h0 : depth ≤ 0 := by simpa using h
    rw [ray_color_fuel, ray_color_unfold, if_pos h0, if_pos h0]
  | succ k ih =>
    intro r depth s h
    rw [ray_color_fuel, ray_color_unfold]
    by_cases h0 : depth ≤ 0
    · rw [if_pos h0, if_pos h0]
    · rw [if_neg h0, if_neg h0]
      cases hh : world.hit r 0.001 ⊤ with
      | none => rfl
      | some rec =>
        simp only
        rcases hs : mats.scatter rec.mat_ptr r rec s with ⟨_ | ⟨a, sc⟩, s1⟩
        · rfl
        · simp only
          rw [ih sc (depth - 1) s1 (by push_cast at h; omega)]

theorem vec3_mul_black (c : color F) : vec3.mul c black = black := by
  simp [vec3.mul, black]

theorem vec3_mul_assoc (a b c : color F) :
    vec3.mul (vec3.mul a b) c = vec3.mul a (vec3.mul b c) := by
  simp [vec3.mul, mul_assoc]

theorem vec3_one_mul (c : color F) : vec3.mul ⟨1, 1, 1⟩ c = c := by
  simp [vec3.mul]

theorem ray_color_loop_eq (sqrt : F → F) (mats : materials F M σ) (world : hittable F M) :
    ∀ (budget : Nat) (product : color F) (r : ray F) (s : σ),
      ray_color_loop sqrt mats world budget product r s =
        (vec3.mul product (ray_color sqrt mats r world (budget : Int) s).1,
          (ray_color sqrt mats r world (budget : Int) s).2) := by
  intro budget
  induction budget with
  | zero =>
    intro product r s
    rw [ray_color_loop, ray_color_unfold]
    simp [vec3_mul_black]
  | succ k ih =>
    intro product r s
    rw [ray_color_loop, ray_color_unfold]
    have hk : ¬ (((k + 1 : Nat) : Int) ≤ 0) := by push_cast; omega
    rw [if_neg hk]
    cases hh : world.hit r 0.001 ⊤ with
    | none => rfl
    | some rec =>
      simp only
      rcases hs : mats.scatter rec.mat_ptr r rec s with ⟨_ | ⟨a, sc⟩, s1⟩
      · simp [vec3_mul_black]
      · simp only
        rw [ih]
        have hk1 : ((k + 1 : Nat) : Int) - 1 = (k : Int) := by push_cast; omega
        rw [hk1, vec3_mul_assoc]

theorem ray_color_fuel_exhausted (sqrt : F → F) (mats : materials F M σ) (world : hittable F M)
    (hhit : ∀ r, ∃ rec, world.hit r 0.001 ⊤ = some rec)
    (hscatter : ∀ m r rec s, ∃ a sc s1, mats.scatter m r rec s = (some (a, sc), s1)) :
    ∀ (fuel : Nat) (r : ray F) (depth : Int) (s : σ), (fuel : Int) < depth →
      ray_color_fuel sqrt mats world fuel r depth s = none := by
  intro fuel
  induction fuel with
  | zero =>
    intro r depth s h
    obtain ⟨rec, hrec⟩ := hhit r
    obtain ⟨a, sc, s1, hs⟩ := hscatter rec.mat_ptr r rec s
    rw [ray_color_fuel, if_neg (by push_cast at h; omega)]
    simp only [hrec, hs]
  | succ k ih =>
    intro r depth s h
    obtain ⟨rec, hrec⟩ := hhit r
    obtain ⟨a, sc, s1, hs⟩ := hscatter rec.mat_ptr r rec s
    rw [ray_color_fuel, if_neg (by push_cast at h; omega)]
    simp only [hrec, hs]
    rw [ih sc (depth - 1) s1 (by push_cast at h; omega)]

/-- C1: with a depth budget that is zero or negative, `ray_color` returns exactly
black for every ray, every scene and every set of materials, and leaves the state
of the random generator as it was: neither the intersection test nor a material
has any influence on the result. -/
theorem ray_color_budget_exhausted (sqrt : F → F) (mats : materials F M σ) (r : ray F)
    (world : hittable F M) (depth : Int) (s : σ) (h : depth ≤ 0) :
    ray_color sqrt mats r world depth s = (black, s) := by
  rw [ray_color_unfold, if_pos h]

theorem ray_color_budget_exhausted_witness :
    (-3 : Int) ≤ 0 ∧
      ray_color rat_sqrt half_mirror ray_345 hall_of_mirrors (-3) 7 = (black, 7) :=
  ⟨by decide, ray_color_budget_exhausted rat_sqrt half_mirror ray_345 hall_of_mirrors (-3) 7
    (by decide)⟩

/-- C2: with a positive depth budget, a ray `r` of non-zero direction `d` that the
intersection test over `(0.001, +infinity)` reports as a miss gets the colour
`(1-t)*(1,1,1) + t*(0.5,0.7,1.0)` with `t = 0.5*(d.y/|d| + 1)`; any ray with the
same normalised vertical component, in any scene it misses and with any positive
budget, gets the same colour. -/
theorem ray_color_background (sqrt : F → F) (mats : materials F M σ) (r : ray F)
    (world : hittable F M) (depth : Int) (s : σ) (hdepth : 0 < depth)
    (_hdir : r.dir ≠ ⟨0, 0, 0⟩) (hmiss : world.hit r 0.001 ⊤ = none) :
    ray_color sqrt mats r world depth s =
        (sky_gradient (r.dir.y / vec3.length sqrt r.dir), s) ∧
      ∀ (M2 σ2 : Type) (mats2 : materials F M2 σ2) (world2 : hittable F M2) (r2 : ray F)
        (depth2 : Int) (s2 : σ2), 0 < depth2 → world2.hit r2 0.001 ⊤ = none →
        r2.dir.y / vec3.length sqrt r2.dir = r.dir.y / vec3.length sqrt r.dir →
        (ray_color sqrt mats2 r2 world2 depth2 s2).1 =
          (ray_color sqrt mats r world depth s).1 := by
  refine ⟨ray_color_of_miss sqrt mats r world depth s hdepth hmiss, ?_⟩
  intro M2 σ2 mats2 world2 r2 depth2 s2 hd2 hm2 hy
  rw [ray_color_of_miss sqrt mats r world depth s hdepth hmiss,
    ray_color_of_miss sqrt mats2 r2 world2 depth2 s2 hd2 hm2, hy]

theorem ray_color_background_witness :
    ray_color rat_sqrt half_mirror ray_345 empty_scene 5 0 =
      (sky_gradient (ray_345.dir.y / vec3.length rat_sqrt ray_345.dir), 0) :=
  (ray_color_background rat_sqrt half_mirror ray_345 empty_scene 5 0 (by decide)
    (by decide) rfl).1

/-- C3: with a positive depth budget and a ray that the intersection test over
`(0.001, +infinity)` reports as hit with record `rec`: when the material of `rec`
scatters into `(attenuation, scattered)`, `ray_color` is the component-wise
product of `attenuation` and `ray_color` of the scattered ray with budget
`depth - 1`; when the material absorbs, `ray_color` is black.  The background
does not enter at this level. -/
theorem ray_color_hit (sqrt : F → F) (mats : materials F M σ) (r : ray F)
    (world : hittable F M) (depth : Int) (s : σ) (rec : hit_record F M) (hdepth : 0 < depth)
    (hhit : world.hit r 0.001 ⊤ = some rec) :
    (∀ attenuation scattered s1,
        mats.scatter rec.mat_ptr r rec s = (some (attenuation, scattered), s1) →
        ray_color sqrt mats r world depth s =
          (vec3.mul attenuation (ray_color sqrt mats scattered world (depth - 1) s1).1,
            (ray_color sqrt mats scattered world (depth - 1) s1).2)) ∧
      (∀ s1, mats.scatter rec.mat_ptr r rec s = (none, s1) →
        ray_color sqrt mats r world depth s = (black, s1)) := by
  constructor
  · intro a sc s1 hs
    rw [ray_color_unfold, if_neg (not_le.mpr hdepth)]
    simp only [hhit, hs]
  · intro s1 hs
    rw [ray_color_unfold, if_neg (not_le.mpr hdepth)]
    simp only [hhit, hs]

theorem ray_color_hit_witness :
    ray_color rat_sqrt half_mirror ray_345 hall_of_mirrors 2 0 =
        (vec3.mul ⟨1 / 2, 1 / 2, 1 / 2⟩
            (ray_color rat_sqrt half_mirror ⟨vec3.add ray_345.orig ray_345.dir, ray_345.dir⟩
              hall_of_mirrors (2 - 1) 1).1,
          (ray_color rat_sqrt half_mirror ⟨vec3.add ray_345.orig ray_345.dir, ray_345.dir⟩
              hall_of_mirrors (2 - 1) 1).2) ∧
      ray_color rat_sqrt absorber ray_345 hall_of_mirrors 2 0 = (black, 1) :=
  ⟨(ray_color_hit rat_sqrt half_mirror ray_345 hall_of_mirrors 2 0
      ⟨vec3.add ray_345.orig ray_345.dir, ⟨0, 1, 0⟩, (), 1, true⟩ (by decide) rfl).1 _ _ _ rfl,
    (ray_color_hit rat_sqrt absorber ray_345 hall_of_mirrors 2 0
      ⟨vec3.add ray_345.orig ray_345.dir, ⟨0, 1, 0⟩, (), 1, true⟩ (by decide) rfl).2 _ rfl⟩

/-- C4: `ray_color` is total.  For every integer depth budget, every ray, every
scene and every material behaviour (also when every ray hits and every material
scatters), running the body of `ray_color` with room for `max(depth, 0)` nested
recursive calls, or more, produces a result, and it is the value of `ray_color`. -/
theorem ray_color_terminates (sqrt : F → F) (mats : materials F M σ) (r : ray F)
    (world : hittable F M) (depth : Int) (s : σ) (extra : Nat) :
    ray_color_fuel sqrt mats world ((max depth 0).toNat + extra) r depth s =
      some (ray_color sqrt mats r world depth s) := by
  apply ray_color_fuel_of_le
  push_cast
  omega

/-- C9: for every scene, every scatter behaviour, every ray and every depth budget
that is not negative, the recursive `ray_color` equals the iterative formulation
run with the same budget, in the colour and in the state of the generator. -/
theorem ray_color_eq_iterative (sqrt : F → F) (mats : materials F M σ) (r : ray F)
    (world : hittable F M) (depth : Int) (s : σ) (h : 0 ≤ depth) :
    ray_color sqrt mats r world depth s =
      ray_color_iterative sqrt mats r world depth.toNat s := by
  rw [ray_color_iterative, ray_color_loop_eq, Int.toNat_of_nonneg h, vec3_one_mul]

theorem ray_color_eq_iterative_witness :
    (0 : Int) ≤ 3 ∧
      ray_color rat_sqrt half_mirror ray_345 hall_of_mirrors 3 0 =
        ray_color_iterative rat_sqrt half_mirror ray_345 hall_of_mirrors (3 : Int).toNat 0 :=
  ⟨by decide, ray_color_eq_iterative rat_sqrt half_mirror ray_345 hall_of_mirrors 3 0
    (by decide)⟩

end integrator_theorems

/-! ## Theorems about `write_color` and the stored bytes -/

section clamp_theorems

variable {F : Type} [LinearOrderedField F]

theorem clamp_bounds (x lo hi : F) (h : lo ≤ hi) : lo ≤ clamp x lo hi ∧ clamp x lo hi ≤ hi := by
  unfold clamp
  split_ifs with h1 h2
  · exact ⟨le_refl _, h⟩
  · exact ⟨h, le_refl _⟩
  · exact ⟨not_lt.mp h1, not_lt.mp h2⟩

end clamp_theorems

section quantisation_theorems

variable {F : Type} [LinearOrderedField F] [FloorRing F]

theorem static_cast_int_intCast (z : Int) : static_cast_int (z : F) = z := by
  unfold static_cast_int
  split_ifs <;> simp

theorem static_cast_int_range (c : F) (h0 : 0 ≤ c) (h1 : c ≤ 0.999) :
    0 ≤ static_cast_int (256 * c) ∧ static_cast_int (256 * c) ≤ 255 := by
  have hpos : (0 : F) ≤ 256 * c := by positivity
  unfold static_cast_int
  rw [if_pos hpos]
  constructor
  · exact Int.floor_nonneg.mpr hpos
  · have hlt : 256 * c < ((256 : Int) : F) := by
      have : (0.999 : F) < 1 := by norm_num
      push_cast
      linarith
    have := Int.floor_lt.mpr hlt
    omega

theorem byte_roundtrip (z : Int) (h0 : 0 ≤ z) (h1 : z ≤ 255) :
    to_unsigned_char (static_cast_char (z : F)) = z := by
  unfold to_unsigned_char static_cast_char
  rw [static_cast_int_intCast]
  omega

theorem write_color_get (sqrt : F → F) (col : color F) (n : Int) (k : Nat) :
    (write_color sqrt col n).get k =
      ((static_cast_int (256 * clamp (sqrt (1.0 / (n : F) * col.get k)) 0.0 0.999) : Int) : F) := by
  match k with
  | 0 => rfl
  | 1 => rfl
  | _ + 2 => rfl

theorem rat_sqrt_zero : rat_sqrt 0 = 0 := by
  simp [rat_sqrt]

theorem rat_sqrt_one : rat_sqrt 1 = 1 := by
  simp [rat_sqrt]

/-- C5: for every positive `samples_per_pixel` `n`, `write_color` turns an
accumulated channel sum of `n * 1.0` into the channel value 255 and an accumulated
channel sum of 0 into the channel value 0 (given `sqrt(1) = 1` and `sqrt(0) = 0`);
this holds for each of the three channels. -/
theorem write_color_full_and_zero (sqrt : F → F) (col : color F) (n : Int) (k : Nat)
    (hn : 0 < n) (hsqrt0 : sqrt 0 = 0) (hsqrt1 : sqrt 1 = 1) :
    (col.get k = (n : F) * 1.0 → (write_color sqrt col n).get k = 255) ∧
      (col.get k = 0 → (write_color sqrt col n).get k = 0) := by
  have h1 : (1.0 : F) = 1 := by norm_num
  have h0 : (0.0 : F) = 0 := by norm_num
  have hnF : (n : F) ≠ 0 := by
    have : (0 : F) < (n : F) := by exact_mod_cast hn
    exact ne_of_gt this
  constructor
  · intro hc
    rw [write_color_get, hc, h1, h0, mul_one, one_div_mul_cancel hnF, hsqrt1]
    have hcl : clamp (1 : F) 0 0.999 = 0.999 := by
      unfold clamp
      rw [if_neg (by norm_num), if_pos (by norm_num)]
    rw [hcl]
    have hfl : static_cast_int (256 * (0.999 : F)) = 255 := by
      unfold static_cast_int
      rw [if_pos (by norm_num)]
      rw [Int.floor_eq_iff]
      constructor <;> norm_num
    rw [hfl]
    norm_num
  · intro hc
    rw [write_color_get, hc, h0, mul_zero, hsqrt0]
    have hcl : clamp (0 : F) 0 0.999 = 0 := by
      unfold clamp
      rw [if_neg (by norm_num), if_neg (by norm_num)]
    rw [hcl, mul_zero]
    have hfl : static_cast_int (0 : F) = 0 := by
      unfold static_cast_int
      simp
    rw [hfl]
    norm_num

theorem write_color_full_and_zero_witness :
    (write_color rat_sqrt ⟨100, 0, 100⟩ 100).get 0 = 255 ∧
      (write_color rat_sqrt ⟨100, 0, 100⟩ 100).get 1 = 0 :=
  ⟨(write_color_full_and_zero rat_sqrt ⟨100, 0, 100⟩ 100 0 (by decide) rat_sqrt_zero
      rat_sqrt_one).1 (by norm_num [vec3.get]),
    (write_color_full_and_zero rat_sqrt ⟨100, 0, 100⟩ 100 1 (by decide) rat_sqrt_zero
      rat_sqrt_one).2 (by norm_num [vec3.get])⟩

end quantisation_theorems


/-! ## Theorems about the double rounding in `write_color` -/

section double_rounding_theorems

theorem round_half_even_of_near (x : ℚ) (m : Int) (h1 : (m : ℚ) - 1 / 2 < x)
    (h2 : x < (m : ℚ) + 1 / 2) : round_half_even x = m := by
  unfold round_half_even
  by_cases hx : (m : ℚ) ≤ x
  · have hf : ⌊x⌋ = m := by
      rw [Int.floor_eq_iff]
      exact ⟨hx, by linarith⟩
    simp only [hf]
    rw [if_pos (by linarith)]
  · have hf : ⌊x⌋ = m - 1 := by
      rw [Int.floor_eq_iff]
      push_cast
      exact ⟨by linarith, by linarith⟩
    simp only [hf]
    push_cast
    rw [if_neg (by linarith), if_pos (by linarith)]
    ring

theorem int_log_two_eq (q : ℚ) (e : Int) (hq : 0 < q) (hlo : (2 : ℚ) ^ e ≤ q)
    (hhi : q < (2 : ℚ) ^ (e + 1)) : Int.log 2 q = e := by
  have h1 : e ≤ Int.log 2 q := by
    rw [← Int.zpow_le_iff_le_log (by norm_num) hq]
    simpa using hlo
  have h2 : Int.log 2 q < e + 1 := by
    rw [← Int.lt_zpow_iff_log_lt (by norm_num) hq]
    simpa using hhi
  omega

theorem round_to_double_eq (q : ℚ) (e m : Int) (hq : 0 < q) (hlo : (2 : ℚ) ^ e ≤ q)
    (hhi : q < (2 : ℚ) ^ (e + 1)) (h1 : (m : ℚ) - 1 / 2 < q / 2 ^ (e - 52))
    (h2 : q / 2 ^ (e - 52) < (m : ℚ) + 1 / 2) :
    round_to_double q = (m : ℚ) * 2 ^ (e - 52) := by
  unfold round_to_double
  rw [if_neg (ne_of_gt hq), abs_of_pos hq, int_log_two_eq q e hq hlo hhi]
  simp only
  rw [round_half_even_of_near _ m h1 h2]

theorem round_to_double_one_over_49 :
    round_to_double (1.0 / ((49 : Int) : ℚ)) = 5882252574524729 * 2 ^ (-58 : Int) := by
  have h := round_to_double_eq (1.0 / ((49 : Int) : ℚ)) (-6) 5882252574524729 (by norm_num)
    (by norm_num) (by norm_num) (by norm_num) (by norm_num)
  simpa using h

theorem round_to_double_product :
    round_to_double (5882252574524729 * 2 ^ (-58 : Int) * 12.25) =
      9007199254740991 * 2 ^ (-55 : Int) := by
  have h := round_to_double_eq (5882252574524729 * 2 ^ (-58 : Int) * 12.25) (-3)
    9007199254740991 (by norm_num) (by norm_num) (by norm_num) (by norm_num) (by norm_num)
  simpa using h

theorem round_to_double_literal_999 :
    round_to_double 0.999 = 8998192055486251 * 2 ^ (-53 : Int) := by
  have h := round_to_double_eq 0.999 (-1) 8998192055486251 (by norm_num) (by norm_num)
    (by norm_num) (by norm_num) (by norm_num)
  simpa using h

theorem round_to_double_scaled_root :
    round_to_double (256 * (9007199254740991 * 2 ^ (-54 : Int))) =
      9007199254740991 * 2 ^ (-46 : Int) := by
  have h := round_to_double_eq (256 * (9007199254740991 * 2 ^ (-54 : Int))) 6
    9007199254740991 (by norm_num) (by norm_num) (by norm_num) (by norm_num) (by norm_num)
  simpa using h

theorem sqrt_double_below_quarter :
    sqrt_double (9007199254740991 * 2 ^ (-55 : Int)) = 9007199254740991 * 2 ^ (-54 : Int) := by
  have hlog : Int.log 2 (9007199254740991 * 2 ^ (-55 : Int) : ℚ) = -3 :=
    int_log_two_eq _ (-3) (by norm_num) (by norm_num) (by norm_num)
  have hdiv : (-3 : Int) / 2 - 52 = -54 := by decide
  have ht : (9007199254740991 * 2 ^ (-55 : Int) : ℚ) / (2 ^ (-54 : Int) * 2 ^ (-54 : Int)) =
      ((81129638414606672688589750403072 : Nat) : ℚ) := by norm_num
  have hs : Nat.sqrt 81129638414606672688589750403072 = 9007199254740991 := by
    symm
    rw [Nat.eq_sqrt]
    constructor <;> norm_num
  unfold sqrt_double
  rw [if_neg (by norm_num), hlog, hdiv]
  simp only [ht, Nat.floor_natCast, hs]
  rw [if_pos (by norm_num)]
  norm_num

theorem sqrt_double_quarter : sqrt_double (12.25 / ((49 : Int) : ℚ)) = 1 / 2 := by
  have hq : (12.25 / ((49 : Int) : ℚ) : ℚ) = 1 / 4 := by norm_num
  have hlog : Int.log 2 (1 / 4 : ℚ) = -2 :=
    int_log_two_eq _ (-2) (by norm_num) (by norm_num) (by norm_num)
  have hdiv : (-2 : Int) / 2 - 52 = -53 := by decide
  have ht : (1 / 4 : ℚ) / (2 ^ (-53 : Int) * 2 ^ (-53 : Int)) =
      ((20282409603651670423947251286016 : Nat) : ℚ) := by norm_num
  have hs : Nat.sqrt 20282409603651670423947251286016 = 4503599627370496 := by
    symm
    rw [Nat.eq_sqrt]
    constructor <;> norm_num
  rw [hq]
  unfold sqrt_double
  rw [if_neg (by norm_num), hlog, hdiv]
  simp only [ht, Nat.floor_natCast, hs]
  rw [if_pos (by norm_num)]
  norm_num

theorem write_color_rounded_get {F : Type} [LinearOrderedField F] [FloorRing F]
    (fl sqrt : F → F) (col : color F) (n : Int) (k : Nat) :
    (write_color_rounded fl sqrt col n).get k =
      ((static_cast_int
        (fl (256 * clamp (sqrt (fl (fl (1.0 / (n : F)) * col.get k))) 0.0 (fl 0.999))) : Int) : F) := by
  match k with
  | 0 => rfl
  | 1 => rfl
  | _ + 2 => rfl

theorem write_color_rounded_id {F : Type} [LinearOrderedField F] [FloorRing F]
    (sqrt : F → F) (col : color F) (n : Int) :
    write_color_rounded id sqrt col n = write_color sqrt col n := rfl

theorem write_color_rounded_at_49 :
    (write_color_rounded round_to_double sqrt_double ⟨12.25, 0, 0⟩ 49).get 0 =
      ((127 : Int) : ℚ) := by
  have hget : (⟨12.25, 0, 0⟩ : color ℚ).get 0 = 12.25 := rfl
  have hclamp : clamp (9007199254740991 * 2 ^ (-54 : Int) : ℚ) 0.0
      (8998192055486251 * 2 ^ (-53 : Int)) = 9007199254740991 * 2 ^ (-54 : Int) := by
    unfold clamp
    rw [if_neg (by norm_num), if_neg (by norm_num)]
  have hfloor : static_cast_int (9007199254740991 * 2 ^ (-46 : Int) : ℚ) = 127 := by
    unfold static_cast_int
    rw [if_pos (by norm_num), Int.floor_eq_iff]
    constructor <;> norm_num
  rw [write_color_rounded_get, hget, round_to_double_one_over_49, round_to_double_product,
    sqrt_double_below_quarter, round_to_double_literal_999, hclamp,
    round_to_double_scaled_root, hfloor]

/-- C8, counterexample: with 49 samples and the accumulated channel sum 12.25 the
code computes `(1.0/49) * 12.25 = 0.25 - 2^-55` in doubles, its root is
`0.5 - 2^-54`, and the byte stored is 127; the quotient `12.25 / 49` is exactly
`0.25`, its root is `0.5`, and `trunc(256 * clamp(sqrt(s/n), 0, 0.999))` is 128. -/
theorem stored_byte_differs_from_quotient_formula :
    to_unsigned_char (static_cast_char
        ((write_color_rounded round_to_double sqrt_double ⟨12.25, 0, 0⟩ 49).get 0)) = 127 ∧
      static_cast_int (256 * clamp (sqrt_double (12.25 / ((49 : Int) : ℚ))) 0 0.999) = 128 ∧
      (1 / 2 : ℚ) * (1 / 2) = 12.25 / ((49 : Int) : ℚ) := by
  refine ⟨?_, ?_, by norm_num⟩
  · rw [write_color_rounded_at_49]
    exact byte_roundtrip 127 (by decide) (by decide)
  · rw [sqrt_double_quarter]
    have hclamp : clamp (1 / 2 : ℚ) 0 0.999 = 1 / 2 := by
      unfold clamp
      rw [if_neg (by norm_num), if_neg (by norm_num)]
    rw [hclamp]
    unfold static_cast_int
    rw [if_pos (by norm_num), Int.floor_eq_iff]
    constructor <;> norm_num

theorem round_half_even_le (x : ℚ) (K : Int) (h : x ≤ (K : ℚ)) : round_half_even x ≤ K := by
  have hf : ((⌊x⌋ : Int) : ℚ) ≤ x := Int.floor_le x
  have hfK : ⌊x⌋ ≤ K := by exact_mod_cast hf.trans h
  unfold round_half_even
  by_cases hK : ⌊x⌋ = K
  · simp only
    rw [if_pos (by rw [hK]; linarith), hK]
  · have hlt : ⌊x⌋ < K := lt_of_le_of_ne hfK hK
    simp only
    split_ifs <;> omega

theorem round_half_even_nonneg (x : ℚ) (h : 0 ≤ x) : 0 ≤ round_half_even x := by
  have hf : 0 ≤ ⌊x⌋ := Int.floor_nonneg.mpr h
  unfold round_half_even
  simp only
  split_ifs <;> omega

theorem round_to_double_nonneg (x : ℚ) (h : 0 ≤ x) : 0 ≤ round_to_double x := by
  unfold round_to_double
  split_ifs with h0
  · exact le_refl 0
  · have hu : (0 : ℚ) < 2 ^ (Int.log 2 |x| - 52) := by positivity
    have hr := round_half_even_nonneg (x / 2 ^ (Int.log 2 |x| - 52)) (div_nonneg h (le_of_lt hu))
    have hrq : (0 : ℚ) ≤ (round_half_even (x / 2 ^ (Int.log 2 |x| - 52)) : ℚ) := by
      exact_mod_cast hr
    exact mul_nonneg hrq (le_of_lt hu)

theorem round_to_double_le (x y : ℚ) (hx : 0 < x) (hxy : x ≤ y)
    (hy : round_to_double y = y) : round_to_double x ≤ y := by
  have hy0 : 0 < y := lt_of_lt_of_le hx hxy
  have hxhi : x < (2 : ℚ) ^ (Int.log 2 x + 1) := by
    simpa using Int.lt_zpow_succ_log_self (b := 2) (by norm_num) x
  have hylo : (2 : ℚ) ^ Int.log 2 y ≤ y := by
    simpa using Int.zpow_log_le_self (b := 2) (by norm_num) hy0
  have hmono : Int.log 2 x ≤ Int.log 2 y := Int.log_mono_right hx hxy
  unfold round_to_double at hy ⊢
  rw [if_neg (ne_of_gt hy0), abs_of_pos hy0] at hy
  rw [if_neg (ne_of_gt hx), abs_of_pos hx]
  simp only at hy ⊢
  have hux : (0 : ℚ) < 2 ^ (Int.log 2 x - 52) := by positivity
  have huy : (0 : ℚ) < 2 ^ (Int.log 2 y - 52) := by positivity
  rcases eq_or_lt_of_le hmono with heq | hlt
  · rw [heq]
    have hK : y / 2 ^ (Int.log 2 y - 52) =
        (round_half_even (y / 2 ^ (Int.log 2 y - 52)) : ℚ) := by
      rw [div_eq_iff (ne_of_gt huy)]
      exact hy.symm
    have hle : x / 2 ^ (Int.log 2 y - 52) ≤
        (round_half_even (y / 2 ^ (Int.log 2 y - 52)) : ℚ) := by
      rw [← hK]
      exact div_le_div_of_nonneg_right hxy (le_of_lt huy)
    have hr := round_half_even_le _ _ hle
    have hrq : (round_half_even (x / 2 ^ (Int.log 2 y - 52)) : ℚ) ≤
        (round_half_even (y / 2 ^ (Int.log 2 y - 52)) : ℚ) := by exact_mod_cast hr
    calc (round_half_even (x / 2 ^ (Int.log 2 y - 52)) : ℚ) * 2 ^ (Int.log 2 y - 52)
        ≤ (round_half_even (y / 2 ^ (Int.log 2 y - 52)) : ℚ) * 2 ^ (Int.log 2 y - 52) :=
          mul_le_mul_of_nonneg_right hrq (le_of_lt huy)
      _ = y := hy
  · have hsplit : (2 : ℚ) ^ (Int.log 2 x + 1) = 2 ^ (53 : Int) * 2 ^ (Int.log 2 x - 52) := by
      rw [← zpow_add₀ (by norm_num : (2 : ℚ) ≠ 0)]
      congr 1
      omega
    have hle : x / 2 ^ (Int.log 2 x - 52) ≤ (((2 : Int) ^ 53 : Int) : ℚ) := by
      rw [div_le_iff₀ hux]
      have : (((2 : Int) ^ 53 : Int) : ℚ) = 2 ^ (53 : Int) := by norm_num
      rw [this, ← hsplit]
      exact le_of_lt hxhi
    have hr := round_half_even_le _ _ hle
    have hrq : (round_half_even (x / 2 ^ (Int.log 2 x - 52)) : ℚ) ≤ 2 ^ (53 : Int) := by
      have : (round_half_even (x / 2 ^ (Int.log 2 x - 52)) : ℚ) ≤ (((2 : Int) ^ 53 : Int) : ℚ) := by
        exact_mod_cast hr
      have h2 : (((2 : Int) ^ 53 : Int) : ℚ) = 2 ^ (53 : Int) := by norm_num
      rwa [h2] at this
    calc (round_half_even (x / 2 ^ (Int.log 2 x - 52)) : ℚ) * 2 ^ (Int.log 2 x - 52)
        ≤ 2 ^ (53 : Int) * 2 ^ (Int.log 2 x - 52) :=
          mul_le_mul_of_nonneg_right hrq (le_of_lt hux)
      _ = 2 ^ (Int.log 2 x + 1) := hsplit.symm
      _ ≤ 2 ^ Int.log 2 y := zpow_le_zpow_right₀ (by norm_num) (by omega)
      _ ≤ y := hylo

theorem round_to_double_scaled_cap :
    round_to_double (256 * (8998192055486251 * 2 ^ (-53 : Int))) =
      256 * (8998192055486251 * 2 ^ (-53 : Int)) := by
  have h := round_to_double_eq (256 * (8998192055486251 * 2 ^ (-53 : Int))) 7
    8998192055486251 (by norm_num) (by norm_num) (by norm_num) (by norm_num) (by norm_num)
  rw [h]
  norm_num

theorem round_to_double_scaled_range (c : ℚ) (h0 : 0 ≤ c) (h1 : c ≤ round_to_double 0.999) :
    0 ≤ round_to_double (256 * c) ∧ round_to_double (256 * c) < 256 := by
  refine ⟨round_to_double_nonneg _ (by positivity), ?_⟩
  rw [round_to_double_literal_999] at h1
  rcases eq_or_lt_of_le h0 with hc | hc
  · rw [← hc]
    norm_num [round_to_double]
  · have hle := round_to_double_le (256 * c) (256 * (8998192055486251 * 2 ^ (-53 : Int)))
      (by positivity) (by linarith) round_to_double_scaled_cap
    have hcap : (256 * (8998192055486251 * 2 ^ (-53 : Int)) : ℚ) < 256 := by norm_num
    linarith

/-- C8, as amended: for every positive `samples_per_pixel` `n` and every
accumulated channel sum `s >= 0`, the byte stored in the output buffer is
`trunc(256 * clamp(sqrt(scale * s), 0, 0.999))` with `scale = 1.0 / n`, where the
reciprocal, the products and the literal `0.999` are rounded to doubles as the
code computes them, and it is an integer in `0 .. 255`: the scaling by the sample
count, the square root, the clamp and the scaling by 256 each enter once, and the
conversions on the way from `write_color` into the buffer change nothing. -/
theorem stored_byte_rounded (sqrt : ℚ → ℚ) (col : color ℚ) (n : Int) (k : Nat)
    (_hn : 0 < n) (_hs : 0 ≤ col.get k) :
    to_unsigned_char (static_cast_char
        ((write_color_rounded round_to_double sqrt col n).get k)) =
        static_cast_int (round_to_double (256 * clamp
          (sqrt (round_to_double (round_to_double (1.0 / (n : ℚ)) * col.get k)))
          0 (round_to_double 0.999))) ∧
      0 ≤ to_unsigned_char (static_cast_char
        ((write_color_rounded round_to_double sqrt col n).get k)) ∧
      to_unsigned_char (static_cast_char
        ((write_color_rounded round_to_double sqrt col n).get k)) ≤ 255 := by
  have h0 : (0.0 : ℚ) = 0 := by norm_num
  have h999 : (0 : ℚ) ≤ round_to_double 0.999 := round_to_double_nonneg _ (by norm_num)
  have hb := clamp_bounds
    (sqrt (round_to_double (round_to_double (1.0 / (n : ℚ)) * col.get k))) 0
    (round_to_double 0.999) h999
  obtain ⟨hr0, hr1⟩ := round_to_double_scaled_range _ hb.1 hb.2
  have hz0 : 0 ≤ static_cast_int (round_to_double (256 * clamp
      (sqrt (round_to_double (round_to_double (1.0 / (n : ℚ)) * col.get k)))
      0 (round_to_double 0.999))) := by
    unfold static_cast_int
    rw [if_pos hr0]
    exact Int.floor_nonneg.mpr hr0
  have hz1 : static_cast_int (round_to_double (256 * clamp
      (sqrt (round_to_double (round_to_double (1.0 / (n : ℚ)) * col.get k)))
      0 (round_to_double 0.999))) ≤ 255 := by
    unfold static_cast_int
    rw [if_pos hr0]
    have hlt : round_to_double (256 * clamp
        (sqrt (round_to_double (round_to_double (1.0 / (n : ℚ)) * col.get k)))
        0 (round_to_double 0.999)) < ((256 : Int) : ℚ) := by
      push_cast
      exact hr1
    have := Int.floor_lt.mpr hlt
    omega
  rw [write_color_rounded_get, h0, byte_roundtrip _ hz0 hz1]
  exact ⟨rfl, hz0, hz1⟩

theorem stored_byte_rounded_witness :
    to_unsigned_char (static_cast_char
        ((write_color_rounded round_to_double sqrt_double ⟨12.25, 0, 0⟩ 49).get 0)) =
        static_cast_int (round_to_double (256 * clamp
          (sqrt_double (round_to_double (round_to_double (1.0 / ((49 : Int) : ℚ)) *
            (⟨12.25, 0, 0⟩ : color ℚ).get 0)))
          0 (round_to_double 0.999))) ∧
      0 ≤ to_unsigned_char (static_cast_char
        ((write_color_rounded round_to_double sqrt_double ⟨12.25, 0, 0⟩ 49).get 0)) ∧
      to_unsigned_char (static_cast_char
        ((write_color_rounded round_to_double sqrt_double ⟨12.25, 0, 0⟩ 49).get 0)) ≤ 255 :=
  stored_byte_rounded sqrt_double ⟨12.25, 0, 0⟩ 49 0 (by decide) (by norm_num [vec3.get])

end double_rounding_theorems

/-! ## Theorems about the render loop -/

section render_theorems

variable {F M σ : Type} [LinearOrderedField F] [FloorRing F]

theorem layout_pixel (w h i j c : Nat) (hi : i < w) (hj : j < h) (hc : c < 3) :
    layout w h (3 * ((h - 1 - j) * w + i) + c) = (3 * ((h - 1 - j) * w + i) + c, i, j, c) := by
  have hw : 0 < w := by omega
  have h3 : (3 * ((h - 1 - j) * w + i) + c) / 3 = (h - 1 - j) * w + i := by omega
  have hc3 : (3 * ((h - 1 - j) * w + i) + c) % 3 = c := by omega
  have hm : ((h - 1 - j) * w + i) % w = i := by
    rw [Nat.add_comm, Nat.add_mul_mod_self_right, Nat.mod_eq_of_lt hi]
  have hd : ((h - 1 - j) * w + i) / w = h - 1 - j := by
    rw [Nat.add_comm, Nat.add_mul_div_right _ _ hw, Nat.div_eq_of_lt hi, Nat.zero_add]
  have hjj : h - 1 - (h - 1 - j) = j := by omega
  simp only [layout, h3, hc3, hm, hd, hjj]

theorem scanned_render_pixel (sqrt : F → F) (mats : materials F M σ) (world : hittable F M)
    (cam : camera F) (random_double : σ → F × σ) (w h n : Nat) (maxDepth : Int)
    (i j : Nat) (hi : i < w) (hj : j < h) (st : render_state F σ)
    (hst : scanned w h ((h - 1 - j) * w + i) st) :
    scanned w h ((h - 1 - j) * w + (i + 1))
      (render_pixel sqrt mats world cam random_double w h n maxDepth j i st) := by
  obtain ⟨hidx, hdata⟩ := hst
  refine ⟨?_, ?_⟩
  · simp only [render_pixel, hidx]
    omega
  · have hr : List.range (3 * ((h - 1 - j) * w + (i + 1))) =
        List.range (3 * ((h - 1 - j) * w + i)) ++
          [3 * ((h - 1 - j) * w + i) + 0, 3 * ((h - 1 - j) * w + i) + 1,
            3 * ((h - 1 - j) * w + i) + 2] := by
      have : 3 * ((h - 1 - j) * w + (i + 1)) = 3 * ((h - 1 - j) * w + i) + 1 + 1 + 1 := by omega
      rw [this, List.range_succ, List.range_succ, List.range_succ]
      simp
    have l0 := layout_pixel w h i j 0 hi hj (by decide)
    rw [Nat.add_zero] at l0
    have l1 := layout_pixel w h i j 1 hi hj (by decide)
    have l2 := layout_pixel w h i j 2 hi hj (by decide)
    rw [hr]
    simp only [render_pixel, List.map_append, hdata, List.map_cons, List.map_nil, l0, l1, l2,
      store.origin, hidx, Nat.add_zero]

theorem quantised_render_pixel (sqrt : F → F) (mats : materials F M σ) (world : hittable F M)
    (cam : camera F) (random_double : σ → F × σ) (w h n : Nat) (maxDepth : Int)
    (i j : Nat) (st : render_state F σ) (hst : quantised sqrt n st) :
    quantised sqrt n (render_pixel sqrt mats world cam random_double w h n maxDepth j i st) := by
  intro e he
  simp only [render_pixel, List.mem_append, List.mem_cons, List.mem_singleton,
    List.not_mem_nil, or_false] at he
  rcases he with he | he | he | he
  · exact hst e he
  · subst he
    exact ⟨by norm_num, rfl, rfl⟩
  · subst he
    exact ⟨by norm_num, rfl, rfl⟩
  · subst he
    exact ⟨by norm_num, rfl, rfl⟩

theorem foldl_preserves {α β : Type} (P : α → Prop) (f : α → β → α)
    (hf : ∀ a b, P a → P (f a b)) : ∀ (l : List β) (a : α), P a → P (l.foldl f a) := by
  intro l
  induction l with
  | nil => intro a ha; exact ha
  | cons b l ih => intro a ha; exact ih (f a b) (hf a b ha)

theorem scanned_render_row (sqrt : F → F) (mats : materials F M σ) (world : hittable F M)
    (cam : camera F) (random_double : σ → F × σ) (w h n : Nat) (maxDepth : Int)
    (j : Nat) (hj : j < h) (st : render_state F σ) (hst : scanned w h ((h - 1 - j) * w) st) :
    scanned w h ((h - 1 - j) * w + w)
      (render_row sqrt mats world cam random_double w h n maxDepth st j) := by
  have key : ∀ m, m ≤ w → scanned w h ((h - 1 - j) * w + m)
      ((List.range m).foldl
        (fun st i => render_pixel sqrt mats world cam random_double w h n maxDepth j i st) st) := by
    intro m
    induction m with
    | zero => intro _; simpa using hst
    | succ m ih =>
      intro hm
      rw [List.range_succ, List.foldl_append]
      exact scanned_render_pixel sqrt mats world cam random_double w h n maxDepth m j
        (by omega) hj _ (ih (by omega))
  exact key w (le_refl w)

theorem scanned_render (sqrt : F → F) (mats : materials F M σ) (world : hittable F M)
    (cam : camera F) (random_double : σ → F × σ) (w h n : Nat) (maxDepth : Int) (s : σ) :
    scanned w h (h * w) (render sqrt mats world cam random_double w h n maxDepth s) := by
  have key : ∀ m, m ≤ h → scanned w h (m * w)
      ((List.range m).foldl
        (fun st m => render_row sqrt mats world cam random_double w h n maxDepth st
          (0 + h - 1 - m)) ⟨0, [], s⟩) := by
    intro m
    induction m with
    | zero => intro _; simp [scanned]
    | succ m ih =>
      intro hm
      rw [List.range_succ, List.foldl_append]
      have hrow := scanned_render_row sqrt mats world cam random_double w h n maxDepth
        (0 + h - 1 - m) (by omega) _
        (by have e : h - 1 - (0 + h - 1 - m) = m := by omega
            rw [e]; exact ih (by omega))
      have e : h - 1 - (0 + h - 1 - m) = m := by omega
      rw [e] at hrow
      have e2 : (m + 1) * w = m * w + w := by ring
      rw [e2]
      exact hrow
  have hrev : (List.range h).reverse = (List.range h).map (fun m => 0 + h - 1 - m) := by
    conv_lhs => rw [List.range_eq_range']
    exact List.reverse_range' 0 h
  rw [render, hrev, List.foldl_map]
  exact key h (le_refl h)

theorem quantised_render (sqrt : F → F) (mats : materials F M σ) (world : hittable F M)
    (cam : camera F) (random_double : σ → F × σ) (w h n : Nat) (maxDepth : Int) (s : σ) :
    quantised sqrt n (render sqrt mats world cam random_double w h n maxDepth s) := by
  apply foldl_preserves (quantised sqrt n)
  · intro st j hst
    apply foldl_preserves (quantised sqrt n)
    · intro st i hst
      exact quantised_render_pixel sqrt mats world cam random_double w h n maxDepth i j st hst
    · exact hst
  · intro e he
    simp at he

/-- C6: the render loop makes exactly `w * h * 3` stores, at the indices
`0, 1, ..., w*h*3 - 1` in this order, so each index of the `w*h*3`-byte buffer is
written exactly once and no other; the pixel of column `i < w` and scan row
`j < h` occupies the three consecutive bytes `3*((h-1-j)*w + i) + c`, `c = 0, 1, 2`,
which hold the x (red), y (green) and z (blue) channel of its colour. -/
theorem render_buffer_layout (sqrt : F → F) (mats : materials F M σ) (world : hittable F M)
    (cam : camera F) (random_double : σ → F × σ) (w h n : Nat) (maxDepth : Int) (s : σ) :
    (render sqrt mats world cam random_double w h n maxDepth s).data.map (fun e => e.index) =
        List.range (w * h * 3) ∧
      ∀ i j c, i < w → j < h → c < 3 →
        ∃ e, (render sqrt mats world cam random_double w h n maxDepth s).data[
              3 * ((h - 1 - j) * w + i) + c]? = some e ∧
          e.index = 3 * ((h - 1 - j) * w + i) + c ∧ e.i = i ∧ e.j = j ∧ e.chan = c ∧
          e.byte = to_unsigned_char (static_cast_char (e.col.get c)) := by
  obtain ⟨-, hdata⟩ := scanned_render sqrt mats world cam random_double w h n maxDepth s
  have hq := quantised_render sqrt mats world cam random_double w h n maxDepth s
  constructor
  · have h1 : (render sqrt mats world cam random_double w h n maxDepth s).data.map
          (fun e => e.index) =
        ((render sqrt mats world cam random_double w h n maxDepth s).data.map
          store.origin).map Prod.fst := by
      rw [List.map_map]
      rfl
    rw [h1, hdata, List.map_map]
    have h2 : (Prod.fst ∘ layout w h) = id := by
      funext k
      rfl
    rw [h2, List.map_id]
    congr 1
    ring
  · intro i j c hi hj hc
    have hk : 3 * ((h - 1 - j) * w + i) + c < 3 * (h * w) := by
      have h1 : (h - 1 - j) * w + w ≤ h * w := by
        have : (h - 1 - j + 1) * w ≤ h * w := Nat.mul_le_mul_right w (by omega)
        rw [Nat.add_mul, Nat.one_mul] at this
        exact this
      omega
    have hget : ((render sqrt mats world cam random_double w h n maxDepth s).data.map
        store.origin)[3 * ((h - 1 - j) * w + i) + c]? =
          some (layout w h (3 * ((h - 1 - j) * w + i) + c)) := by
      rw [hdata, List.getElem?_map, List.getElem?_range hk]
      rfl
    rw [List.getElem?_map, layout_pixel w h i j c hi hj hc] at hget
    cases he : (render sqrt mats world cam random_double w h n maxDepth s).data[
        3 * ((h - 1 - j) * w + i) + c]? with
    | none => rw [he] at hget; simp at hget
    | some e =>
      rw [he] at hget
      simp only [Option.map_some', Option.some.injEq, store.origin, Prod.mk.injEq] at hget
      obtain ⟨e1, e2, e3, e4⟩ := hget
      have hmem := List.getElem?_mem he
      have hb := (hq e hmem).2.2
      rw [e4] at hb
      exact ⟨e, rfl, e1, e2, e3, e4, hb⟩

theorem render_buffer_layout_witness :
    (render rat_sqrt half_mirror empty_scene pinhole constant_half 3 2 2 5 0).data.map
        (fun e => e.index) = List.range (3 * 2 * 3) ∧
      ∃ e, (render rat_sqrt half_mirror empty_scene pinhole constant_half 3 2 2 5 0).data[
            3 * ((2 - 1 - 0) * 3 + 1) + 2]? = some e ∧
        e.index = 3 * ((2 - 1 - 0) * 3 + 1) + 2 ∧ e.i = 1 ∧ e.j = 0 ∧ e.chan = 2 ∧
        e.byte = to_unsigned_char (static_cast_char (e.col.get 2)) :=
  ⟨(render_buffer_layout rat_sqrt half_mirror empty_scene pinhole constant_half 3 2 2 5 0).1,
    (render_buffer_layout rat_sqrt half_mirror empty_scene pinhole constant_half 3 2 2 5 0).2
      1 0 2 (by decide) (by decide) (by decide)⟩

end render_theorems


/-! ## Range of the colours -/

section range_theorems

variable {F M σ : Type} [LinearOrderedField F]

theorem length_squared_pos (d : vec3 F) (hd : d ≠ ⟨0, 0, 0⟩) : 0 < vec3.length_squared d := by
  rcases d with ⟨x, y, z⟩
  unfold vec3.length_squared
  simp only
  by_contra hcon
  have hx := mul_self_nonneg x
  have hy := mul_self_nonneg y
  have hz := mul_self_nonneg z
  have hx0 : x * x = 0 := by linarith
  have hy0 : y * y = 0 := by linarith
  have hz0 : z * z = 0 := by linarith
  apply hd
  rw [mul_self_eq_zero.mp hx0, mul_self_eq_zero.mp hy0, mul_self_eq_zero.mp hz0]

theorem unit_y_range (sqrt : F → F)
    (hsqrt : ∀ x, 0 ≤ x → 0 ≤ sqrt x ∧ sqrt x * sqrt x = x)
    (d : vec3 F) (hd : d ≠ ⟨0, 0, 0⟩) :
    -1 ≤ d.y / vec3.length sqrt d ∧ d.y / vec3.length sqrt d ≤ 1 := by
  have hpos := length_squared_pos d hd
  obtain ⟨hL0, hLL⟩ := hsqrt (vec3.length_squared d) (le_of_lt hpos)
  have hL : 0 < vec3.length sqrt d := by
    unfold vec3.length
    rcases lt_or_eq_of_le hL0 with h | h
    · exact h
    · rw [← h] at hLL
      simp at hLL
      linarith
  have hsq : d.y * d.y ≤ vec3.length sqrt d * vec3.length sqrt d := by
    unfold vec3.length
    rw [hLL]
    unfold vec3.length_squared
    nlinarith [mul_self_nonneg d.x, mul_self_nonneg d.z]
  have h2 : d.y ≤ vec3.length sqrt d := by
    by_contra hc
    push_neg at hc
    nlinarith
  have h1 : -vec3.length sqrt d ≤ d.y := by
    by_contra hc
    push_neg at hc
    nlinarith
  constructor
  · rw [le_div_iff₀ hL]
    linarith
  · rw [div_le_one hL]
    exact h2

theorem sky_gradient_range (yn : F) (h0 : -1 ≤ yn) (h1 : yn ≤ 1) :
    channels_in (sky_gradient yn) 1 := by
  simp only [channels_in, sky_gradient, vec3.add, vec3.smul]
  refine ⟨⟨?_, ?_⟩, ⟨?_, ?_⟩, ⟨?_, ?_⟩⟩ <;> norm_num <;> linarith

theorem background_range (sqrt : F → F)
    (hsqrt : ∀ x, 0 ≤ x → 0 ≤ sqrt x ∧ sqrt x * sqrt x = x)
    (r : ray F) (hd : r.dir ≠ ⟨0, 0, 0⟩) : channels_in (background sqrt r) 1 := by
  rw [background_eq_sky_gradient]
  obtain ⟨h0, h1⟩ := unit_y_range sqrt hsqrt r.dir hd
  exact sky_gradient_range _ h0 h1

theorem black_range (b : F) (hb : 0 ≤ b) : channels_in (black : color F) b := by
  simp [channels_in, black, hb]

theorem mul_range (a c : color F) (ha : channels_in a 1) (hc : channels_in c 1) :
    channels_in (vec3.mul a c) 1 := by
  obtain ⟨⟨a1, a2⟩, ⟨a3, a4⟩, ⟨a5, a6⟩⟩ := ha
  obtain ⟨⟨c1, c2⟩, ⟨c3, c4⟩, ⟨c5, c6⟩⟩ := hc
  simp only [channels_in, vec3.mul]
  refine ⟨⟨mul_nonneg a1 c1, ?_⟩, ⟨mul_nonneg a3 c3, ?_⟩, ⟨mul_nonneg a5 c5, ?_⟩⟩ <;> nlinarith

theorem add_range (a c : color F) (b : F) (ha : channels_in a b) (hc : channels_in c 1) :
    channels_in (vec3.add a c) (b + 1) := by
  obtain ⟨⟨a1, a2⟩, ⟨a3, a4⟩, ⟨a5, a6⟩⟩ := ha
  obtain ⟨⟨c1, c2⟩, ⟨c3, c4⟩, ⟨c5, c6⟩⟩ := hc
  simp only [channels_in, vec3.add]
  refine ⟨⟨?_, ?_⟩, ⟨?_, ?_⟩, ⟨?_, ?_⟩⟩ <;> linarith

theorem ray_color_range (sqrt : F → F) (mats : materials F M σ) (world : hittable F M)
    (hsqrt : ∀ x, 0 ≤ x → 0 ≤ sqrt x ∧ sqrt x * sqrt x = x)
    (hatt : ∀ m r rec s a sc s1, mats.scatter m r rec s = (some (a, sc), s1) →
      channels_in a 1) :
    ∀ (budget : Nat) (r : ray F) (s : σ), nonzero_directions mats world budget r s →
      channels_in (ray_color sqrt mats r world (budget : Int) s).1 1 := by
  intro budget
  induction budget with
  | zero =>
    intro r s _
    rw [ray_color_unfold]
    simpa using black_range (1 : F) zero_le_one
  | succ k ih =>
    intro r s hnz
    rw [ray_color_unfold]
    have hk : ¬ (((k + 1 : Nat) : Int) ≤ 0) := by push_cast; omega
    rw [if_neg hk]
    rw [nonzero_directions] at hnz
    obtain ⟨hd, hrest⟩ := hnz
    cases hh : world.hit r 0.001 ⊤ with
    | none => exact background_range sqrt hsqrt r hd
    | some rec =>
      rw [hh] at hrest
      simp only at hrest ⊢
      rcases hs : mats.scatter rec.mat_ptr r rec s with ⟨_ | ⟨a, sc⟩, s1⟩
      · exact black_range (1 : F) zero_le_one
      · rw [hs] at hrest
        simp only at hrest ⊢
        have hk1 : ((k + 1 : Nat) : Int) - 1 = (k : Int) := by push_cast; omega
        rw [hk1]
        exact mul_range a _ (hatt _ _ _ _ _ _ _ hs) (ih sc s1 hrest)

theorem ray_color_range_int (sqrt : F → F) (mats : materials F M σ) (world : hittable F M)
    (hsqrt : ∀ x, 0 ≤ x → 0 ≤ sqrt x ∧ sqrt x * sqrt x = x)
    (hatt : ∀ m r rec s a sc s1, mats.scatter m r rec s = (some (a, sc), s1) →
      channels_in a 1)
    (r : ray F) (depth : Int) (s : σ)
    (hnz : nonzero_directions mats world depth.toNat r s) :
    channels_in (ray_color sqrt mats r world depth s).1 1 := by
  by_cases h : depth ≤ 0
  · rw [ray_color_unfold, if_pos h]
    exact black_range (1 : F) zero_le_one
  · have hd : ((depth.toNat : Nat) : Int) = depth := Int.toNat_of_nonneg (by omega)
    have := ray_color_range sqrt mats world hsqrt hatt depth.toNat r s hnz
    rwa [hd] at this

theorem sample_range (sqrt : F → F) (mats : materials F M σ) (world : hittable F M)
    (hsqrt : ∀ x, 0 ≤ x → 0 ≤ sqrt x ∧ sqrt x * sqrt x = x)
    (hatt : ∀ m r rec s a sc s1, mats.scatter m r rec s = (some (a, sc), s1) →
      channels_in a 1)
    (cam : camera F) (random_double : σ → F × σ) (w h : Nat) (maxDepth : Int) (i j : Nat)
    (hcam : ∀ u v s1, nonzero_directions mats world maxDepth.toNat (cam.get_ray u v) s1)
    (acc : color F × σ) (b : F) (hacc : channels_in acc.1 b) :
    channels_in (sample sqrt mats world cam random_double w h maxDepth i j acc).1 (b + 1) := by
  simp only [sample]
  exact add_range _ _ b hacc (ray_color_range_int sqrt mats world hsqrt hatt _ _ _ (hcam _ _ _))

theorem accumulate_range (sqrt : F → F) (mats : materials F M σ) (world : hittable F M)
    (hsqrt : ∀ x, 0 ≤ x → 0 ≤ sqrt x ∧ sqrt x * sqrt x = x)
    (hatt : ∀ m r rec s a sc s1, mats.scatter m r rec s = (some (a, sc), s1) →
      channels_in a 1)
    (cam : camera F) (random_double : σ → F × σ) (w h n : Nat) (maxDepth : Int) (i j : Nat)
    (hcam : ∀ u v s1, nonzero_directions mats world maxDepth.toNat (cam.get_ray u v) s1)
    (s : σ) :
    channels_in (accumulate sqrt mats world cam random_double w h n maxDepth i j s).1 (n : F) := by
  have key : ∀ (l : List Nat) (acc : color F × σ) (b : F), channels_in acc.1 b →
      channels_in (l.foldl
        (fun acc _ => sample sqrt mats world cam random_double w h maxDepth i j acc) acc).1
        (b + (l.length : F)) := by
    intro l
    induction l with
    | nil => intro acc b hb; simpa using hb
    | cons x l ih =>
      intro acc b hb
      have hstep := sample_range sqrt mats world hsqrt hatt cam random_double w h maxDepth i j
        hcam acc b hb
      have := ih _ _ hstep
      simp only [List.foldl_cons, List.length_cons]
      have e : b + ((l.length + 1 : Nat) : F) = b + 1 + (l.length : F) := by push_cast; ring
      rw [e]
      exact this
  have := key (List.range n) (black, s) 0 (black_range (0 : F) (le_refl 0))
  simpa [accumulate] using this

/-- C10: when every attenuation a material returns has its three channels in
`[0,1]` and the rays traced (the first one and every scattered one) have non-zero
directions, every channel of the result of `ray_color` lies in `[0,1]`, for every
depth budget; consequently the sum of `n > 0` samples scaled by `1/n`, the value
that goes into the square root, has every channel in `[0,1]`.  `sqrt` is taken to
be an exact, non-negative square root. -/
theorem ray_color_channels_unit (sqrt : F → F) (mats : materials F M σ) (world : hittable F M)
    (hsqrt : ∀ x, 0 ≤ x → 0 ≤ sqrt x ∧ sqrt x * sqrt x = x)
    (hatt : ∀ m r rec s a sc s1, mats.scatter m r rec s = (some (a, sc), s1) →
      channels_in a 1) :
    (∀ (r : ray F) (depth : Int) (s : σ), nonzero_directions mats world depth.toNat r s →
        channels_in (ray_color sqrt mats r world depth s).1 1) ∧
      ∀ (cam : camera F) (random_double : σ → F × σ) (w h n : Nat) (maxDepth : Int)
        (i j : Nat) (s : σ), 0 < n →
        (∀ u v s1, nonzero_directions mats world maxDepth.toNat (cam.get_ray u v) s1) →
        channels_in (vec3.smul (1.0 / (((n : Nat) : Int) : F))
          (accumulate sqrt mats world cam random_double w h n maxDepth i j s).1) 1 := by
  refine ⟨fun r depth s hnz => ray_color_range_int sqrt mats world hsqrt hatt r depth s hnz, ?_⟩
  intro cam random_double w h n maxDepth i j s hn hcam
  obtain ⟨⟨x0, x1⟩, ⟨y0, y1⟩, ⟨z0, z1⟩⟩ :=
    accumulate_range sqrt mats world hsqrt hatt cam random_double w h n maxDepth i j hcam s
  have hnF : (0 : F) < (n : F) := by exact_mod_cast hn
  have h1 : (1.0 : F) = 1 := by norm_num
  simp only [channels_in, vec3.smul, h1, Int.cast_natCast, one_div_mul_eq_div]
  refine ⟨⟨?_, ?_⟩, ⟨?_, ?_⟩, ⟨?_, ?_⟩⟩
  · exact div_nonneg x0 (le_of_lt hnF)
  · exact (div_le_one hnF).mpr x1
  · exact div_nonneg y0 (le_of_lt hnF)
  · exact (div_le_one hnF).mpr y1
  · exact div_nonneg z0 (le_of_lt hnF)
  · exact (div_le_one hnF).mpr z1

theorem real_sqrt_exact : ∀ x : ℝ, 0 ≤ x → 0 ≤ Real.sqrt x ∧ Real.sqrt x * Real.sqrt x = x :=
  fun x hx => ⟨Real.sqrt_nonneg x, Real.mul_self_sqrt hx⟩

theorem grey_up_attenuation : ∀ (m : Unit) (r : ray ℝ) (rec : hit_record ℝ Unit) (s : Nat)
    (a : color ℝ) (sc : ray ℝ) (s1 : Nat),
    (grey_up : materials ℝ Unit Nat).scatter m r rec s = (some (a, sc), s1) →
      channels_in a 1 := by
  intro m r rec s a sc s1 h
  simp only [grey_up, Prod.mk.injEq, Option.some.injEq] at h
  obtain ⟨⟨ha, -⟩, -⟩ := h
  subst ha
  norm_num [channels_in]

theorem up_ray_nonzero (o : point3 ℝ) (s : Nat) :
    nonzero_directions (grey_up : materials ℝ Unit Nat) floor_scene 3 ⟨o, ⟨0, 1, 0⟩⟩ s := by
  by_cases h : o.y < 1 <;>
    simp [nonzero_directions, floor_scene, grey_up, h]

theorem ray_color_channels_unit_witness :
    channels_in (ray_color Real.sqrt (grey_up : materials ℝ Unit Nat) ⟨⟨0, 0, 0⟩, ⟨0, 1, 0⟩⟩
        floor_scene 3 0).1 1 ∧
      channels_in (vec3.smul (1.0 / (((4 : Nat) : Int) : ℝ))
        (accumulate Real.sqrt (grey_up : materials ℝ Unit Nat) floor_scene camera_up
          half_generator 2 2 4 3 0 0 0).1) 1 :=
  ⟨(ray_color_channels_unit Real.sqrt grey_up floor_scene real_sqrt_exact
      grey_up_attenuation).1 ⟨⟨0, 0, 0⟩, ⟨0, 1, 0⟩⟩ 3 0 (up_ray_nonzero _ _),
    (ray_color_channels_unit Real.sqrt grey_up floor_scene real_sqrt_exact
      grey_up_attenuation).2 camera_up half_generator 2 2 4 3 0 0 0 (by decide)
      (fun _ _ _ => up_ray_nonzero _ _)⟩

end range_theorems

/-! ## The image-plane coordinates of a sample -/

section sampling_theorems

variable {F : Type} [LinearOrderedField F]

theorem sample_u_bounds (w i : Nat) (rnd : F) (hw : 2 ≤ w) (hi : i < w) (h0 : 0 ≤ rnd)
    (h1 : rnd < 1) :
    0 ≤ sample_u w i rnd ∧ sample_u w i rnd < (w : F) / ((w : F) - 1) ∧
      (i + 1 < w → sample_u w i rnd < 1) := by
  have hw1 : (0 : F) < (w : F) - 1 := by
    have : (2 : F) ≤ (w : F) := by exact_mod_cast hw
    linarith
  have hiF : (i : F) + 1 ≤ (w : F) := by exact_mod_cast hi
  have hi0 : (0 : F) ≤ (i : F) := Nat.cast_nonneg i
  simp only [sample_u, Int.cast_sub, Int.cast_natCast, Int.cast_one]
  refine ⟨div_nonneg (by linarith) (le_of_lt hw1), ?_, ?_⟩
  · exact div_lt_div_of_pos_right (by linarith) hw1
  · intro hlt
    have hltF : (i : F) + 1 + 1 ≤ (w : F) := by exact_mod_cast hlt
    rw [div_lt_one hw1]
    linarith

theorem sample_v_eq_sample_u (h j : Nat) (rnd : F) : sample_v h j rnd = sample_u h j rnd := rfl

/-- C7: at the last column of the 400 pixel wide image and at the top scan row of
its 225 rows, the jitter one half gives image-plane coordinates above 1:
`u = 399.5 / 399` and `v = 224.5 / 224`. -/
theorem sample_uv_exceed_one :
    sample_u 400 399 (1 / 2 : ℚ) = 799 / 798 ∧ (1 : ℚ) < sample_u 400 399 (1 / 2) ∧
      sample_v 225 224 (1 / 2 : ℚ) = 449 / 448 ∧ (1 : ℚ) < sample_v 225 224 (1 / 2) := by
  norm_num [sample_u, sample_v]

end sampling_theorems

end Lucin
